import Mathlib

/-!
Verification of the Tobit censored-regression estimator (`tobit.py`).

The source is embedded shallowly over `ℝ`: feature matrices are lists of
rows (`List (List ℝ)`), responses are `List ℝ`, censoring codes are `List ℤ`
(the wire form uses -1 / 0 / 1).  `numpy` reductions become list sums,
`scipy.stats.norm.logpdf` becomes `logpdf`, `scipy.special.log_ndtr`
(= `scipy.stats.norm.logcdf`) becomes `log_ndtr`, and
`np.finfo('float').resolution` becomes `resolution = 1e-15`.
-/

namespace Tobit

/-- `np.dot` of two 1-d vectors. -/
def dot (a b : List ℝ) : ℝ := (List.zipWith (· * ·) a b).sum

/-- `np.finfo('float').resolution` for float64, i.e. `1e-15`. -/
noncomputable def resolution : ℝ := 1 / 10 ^ 15

/-- `scipy.stats.norm.logpdf`: the log of the standard normal density,
`-z^2/2 - log (sqrt (2*pi))`. -/
noncomputable def logpdf (z : ℝ) : ℝ := -(z ^ 2) / 2 - Real.log (Real.sqrt (2 * Real.pi))

/-- The standard normal CDF `Φ`. -/
noncomputable def normCdf (z : ℝ) : ℝ :=
  (∫ t in Set.Iic z, Real.exp (-(t ^ 2) / 2)) / Real.sqrt (2 * Real.pi)

/-- `scipy.special.log_ndtr` (= `scipy.stats.norm.logcdf`): `log Φ`. -/
noncomputable def log_ndtr (z : ℝ) : ℝ := Real.log (normCdf z)

/-- The three censoring groups as `split_left_right_censored` returns them:
each is the pair (feature rows, responses), or `none` when no observation
carries that censoring code. -/
structure TobitData where
  left : Option (List (List ℝ) × List ℝ)
  mid : Option (List (List ℝ) × List ℝ)
  right : Option (List (List ℝ) × List ℝ)

/-- The dataset as (row, response, code) triples; pandas boolean-mask
selection `x[cens == v]`, `y[cens == v]` filters `x` and `y` by the same
mask, which on equal-length data is filtering this zipped list. -/
def rowsOf (x : List (List ℝ)) (y : List ℝ) (cens : List ℤ) :
    List (List ℝ × ℝ × ℤ) :=
  x.zip (y.zip cens)

/-- One iteration of the source's `for value in [-1, 0, 1]` loop:
`value in counts` holds exactly when some observation has code `v`;
otherwise the group is `None`. -/
def selGroup (x : List (List ℝ)) (y : List ℝ) (cens : List ℤ) (v : ℤ) :
    Option (List (List ℝ) × List ℝ) :=
  if v ∈ cens then
    let sel := (rowsOf x y cens).filter fun r => r.2.2 == v
    some (sel.map Prod.fst, sel.map fun r => r.2.1)
  else none

/-- `split_left_right_censored(x, y, cens)`: the groups for codes -1, 0, 1. -/
def split_left_right_censored (x : List (List ℝ)) (y : List ℝ) (cens : List ℤ) :
    TobitData :=
  ⟨selGroup x y cens (-1), selGroup x y cens 0, selGroup x y cens 1⟩

/-- `tobit_neg_log_likelihood(xs, ys, params)`: `b = params[:-1]`,
`s = params[-1]`; the left and right residuals are concatenated, divided by
`s`, passed through `logcdf` and summed; the mid group contributes
`logpdf(z) - log(max(resolution, s))` per observation; the negated total is
returned. -/
noncomputable def tobit_neg_log_likelihood (d : TobitData) (params : List ℝ) : ℝ :=
  let b := params.dropLast
  let s := params.getLastD 0
  let leftRes : List ℝ :=
    match d.left with
    | some g => List.zipWith (fun yi r => yi - dot r b) g.2 g.1
    | none => []
  let rightRes : List ℝ :=
    match d.right with
    | some g => List.zipWith (fun r yi => dot r b - yi) g.1 g.2
    | none => []
  let cens_sum := ((leftRes ++ rightRes).map fun r => log_ndtr (r / s)).sum
  let mid_sum : ℝ :=
    match d.mid with
    | some g =>
        (List.zipWith
          (fun yi r => logpdf ((yi - dot r b) / s) - Real.log (max resolution s))
          g.2 g.1).sum
    | none => 0
  Neg.neg (cens_sum + mid_sum)

/-- The log-likelihood written the way the specification describes it: one
sum per group (an absent group contributes 0), negated.  The mid group's
scale term keeps the source's floor `log (max resolution s)`. -/
noncomputable def loglik_by_groups (d : TobitData) (b : List ℝ) (s : ℝ) : ℝ :=
  let lsum : ℝ :=
    match d.left with
    | some g => (List.zipWith (fun yi r => log_ndtr ((yi - dot r b) / s)) g.2 g.1).sum
    | none => 0
  let rsum : ℝ :=
    match d.right with
    | some g => (List.zipWith (fun r yi => log_ndtr ((dot r b - yi) / s)) g.1 g.2).sum
    | none => 0
  let msum : ℝ :=
    match d.mid with
    | some g =>
        (List.zipWith
          (fun yi r => logpdf ((yi - dot r b) / s) - Real.log (max resolution s))
          g.2 g.1).sum
    | none => 0
  Neg.neg (lsum + rsum + msum)

/-- The claim's formula verbatim: the mid group contributes
`logpdf(z) - log s` with no floor on `s`. -/
noncomputable def loglik_claimed (d : TobitData) (b : List ℝ) (s : ℝ) : ℝ :=
  let lsum : ℝ :=
    match d.left with
    | some g => (List.zipWith (fun yi r => log_ndtr ((yi - dot r b) / s)) g.2 g.1).sum
    | none => 0
  let rsum : ℝ :=
    match d.right with
    | some g => (List.zipWith (fun r yi => log_ndtr ((dot r b - yi) / s)) g.1 g.2).sum
    | none => 0
  let msum : ℝ :=
    match d.mid with
    | some g =>
        (List.zipWith (fun yi r => logpdf ((yi - dot r b) / s) - Real.log s) g.2 g.1).sum
    | none => 0
  Neg.neg (lsum + rsum + msum)

lemma dropLast_concat' (b : List ℝ) (s : ℝ) : (b ++ [s]).dropLast = b := by
  simp

lemma getLastD_concat' (b : List ℝ) (s r : ℝ) : (b ++ [s]).getLastD r = s := by
  simp

/-- C1: the negative log-likelihood splits into the three per-group sums the
spec describes (absent groups contribute 0), with the one amendment the
source forces: the mid group's scale term is `log (max resolution s)`, the
floored form, not the raw `log s`. -/
theorem tobit_neg_log_likelihood_eq_groups (d : TobitData) (b : List ℝ) (s : ℝ) :
    tobit_neg_log_likelihood d (b ++ [s]) = loglik_by_groups d b s := by
  obtain ⟨l, m, r⟩ := d
  simp only [tobit_neg_log_likelihood, loglik_by_groups, dropLast_concat',
    getLastD_concat']
  cases l <;> cases m <;> cases r <;>
    simp [List.map_zipWith, add_comm, add_left_comm, add_assoc]

/-- C1, counterexample to the unfloored formula: with one uncensored
observation, `b = [0]` and `s = 1e-16 < resolution`, the source's value uses
`log resolution` where the claim's formula uses `log s`, and the two differ. -/
theorem tobit_neg_log_likelihood_ne_claimed :
    tobit_neg_log_likelihood ⟨none, some ([[1]], [0]), none⟩ ([0] ++ [1 / 10 ^ 16]) ≠
      loglik_claimed ⟨none, some ([[1]], [0]), none⟩ [0] (1 / 10 ^ 16) := by
  have hlt : Real.log ((1 : ℝ) / 10 ^ 16) < Real.log (1 / 10 ^ 15) :=
    Real.log_lt_log (by norm_num) (by norm_num)
  have hmax : max resolution ((1 : ℝ) / 10 ^ 16) = 1 / 10 ^ 15 := by
    rw [resolution]; exact max_eq_left (by norm_num)
  simp only [tobit_neg_log_likelihood, loglik_claimed, dropLast_concat',
    getLastD_concat', hmax]
  simp only [dot, List.zipWith, List.map, List.sum_cons, List.sum_nil,
    List.append_nil, List.nil_append, List.map_nil]
  intro h
  norm_num at h
  linarith

/-! ## Gradient (`tobit_neg_log_likelihood_der`) -/

/-- Pointwise vector addition (equal-length `numpy` `+`). -/
def vadd (a b : List ℝ) : List ℝ := List.zipWith (· + ·) a b

/-- Pointwise vector subtraction. -/
def vsub (a b : List ℝ) : List ℝ := List.zipWith (· - ·) a b

/-- Pointwise negation. -/
def vneg (a : List ℝ) : List ℝ := a.map Neg.neg

/-- `np.zeros n`. -/
def zeros (n : ℕ) : List ℝ := List.replicate n 0

/-- `X / s` on a matrix: elementwise division. -/
noncomputable def matDiv (x : List (List ℝ)) (s : ℝ) : List (List ℝ) :=
  x.map fun r => r.map (· / s)

/-- `np.dot(w, X)` for a weight vector and a matrix with rows of length `n`:
the weighted sum of the rows. -/
noncomputable def vecMat (w : List ℝ) (rows : List (List ℝ)) (n : ℕ) : List ℝ :=
  (List.zipWith (fun wi r => r.map (wi * ·)) w rows).foldl vadd (zeros n)

/-- The inverse Mills ratio computed in log space, exactly as the source:
`np.exp(logpdf(z) - log_ndtr(z))`. -/
noncomputable def invMills (z : ℝ) : ℝ := Real.exp (logpdf z - log_ndtr z)

/-- `tobit_neg_log_likelihood_der(xs, ys, params)`: starts from
`beta_jac = zeros(len(b))`, `sigma_jac = 0`, accumulates the left, right and
mid contributions in source order, appends `sigma_jac / s` and negates the
combined vector.  No flooring of `s` occurs anywhere in this function. -/
noncomputable def tobit_neg_log_likelihood_der (d : TobitData) (params : List ℝ) :
    List ℝ :=
  let b := params.dropLast
  let s := params.getLastD 0
  let n := b.length
  let a0 : List ℝ × ℝ := (zeros n, 0)
  let a1 : List ℝ × ℝ :=
    match d.left with
    | some g =>
        let stats := List.zipWith (fun yi r => (yi - dot r b) / s) g.2 g.1
        let frac := stats.map invMills
        (vsub a0.1 (vecMat frac (matDiv g.1 s) n), a0.2 - dot frac stats)
    | none => a0
  let a2 : List ℝ × ℝ :=
    match d.right with
    | some g =>
        let stats := List.zipWith (fun r yi => (dot r b - yi) / s) g.1 g.2
        let frac := stats.map invMills
        (vadd a1.1 (vecMat frac (matDiv g.1 s) n), a1.2 - dot frac stats)
    | none => a1
  let a3 : List ℝ × ℝ :=
    match d.mid with
    | some g =>
        let stats := List.zipWith (fun yi r => (yi - dot r b) / s) g.2 g.1
        (vadd a2.1 (vecMat stats (matDiv g.1 s) n),
          a2.2 + (stats.map fun z => z ^ 2 - 1).sum)
    | none => a2
  vneg (a3.1 ++ [a3.2 / s])

/-- The gradient written the way the claim describes it: per-group
contributions to the positive log-likelihood's gradient (`-Σ ratio·x/s` and
`-Σ ratio·z` for left, `+Σ ratio·x/s` and `-Σ ratio·z` for right,
`+Σ z·x/s` and `+Σ (z²-1)` for mid, absent groups contributing 0), the
σ-entry divided by `s`, and the whole vector negated. -/
noncomputable def grad_by_groups (d : TobitData) (b : List ℝ) (s : ℝ) : List ℝ :=
  let n := b.length
  let lbeta : List ℝ :=
    match d.left with
    | some g =>
        let stats := List.zipWith (fun yi r => (yi - dot r b) / s) g.2 g.1
        vecMat (stats.map invMills) (matDiv g.1 s) n
    | none => zeros n
  let lsigma : ℝ :=
    match d.left with
    | some g =>
        let stats := List.zipWith (fun yi r => (yi - dot r b) / s) g.2 g.1
        dot (stats.map invMills) stats
    | none => 0
  let rbeta : List ℝ :=
    match d.right with
    | some g =>
        let stats := List.zipWith (fun r yi => (dot r b - yi) / s) g.1 g.2
        vecMat (stats.map invMills) (matDiv g.1 s) n
    | none => zeros n
  let rsigma : ℝ :=
    match d.right with
    | some g =>
        let stats := List.zipWith (fun r yi => (dot r b - yi) / s) g.1 g.2
        dot (stats.map invMills) stats
    | none => 0
  let mbeta : List ℝ :=
    match d.mid with
    | some g =>
        let stats := List.zipWith (fun yi r => (yi - dot r b) / s) g.2 g.1
        vecMat stats (matDiv g.1 s) n
    | none => zeros n
  let msigma : ℝ :=
    match d.mid with
    | some g =>
        let stats := List.zipWith (fun yi r => (yi - dot r b) / s) g.2 g.1
        (stats.map fun z => z ^ 2 - 1).sum
    | none => 0
  let beta := vadd (vadd (vneg lbeta) rbeta) mbeta
  let sigmaAcc := -lsigma - rsigma + msigma
  vneg (beta ++ [sigmaAcc / s])

/-- Every feature row of a (possibly absent) group has length `n`. -/
def groupWF (g : Option (List (List ℝ) × List ℝ)) (n : ℕ) : Prop :=
  ∀ p ∈ g, ∀ r ∈ p.1, r.length = n

lemma foldl_vadd_length (ls : List (List ℝ)) (acc : List ℝ)
    (h : ∀ l ∈ ls, l.length = acc.length) :
    (ls.foldl vadd acc).length = acc.length := by
  induction ls generalizing acc with
  | nil => rfl
  | cons hd tl ih =>
      have hhd : hd.length = acc.length := h hd (List.mem_cons_self _ _)
      have hnew : (vadd acc hd).length = acc.length := by
        simp [vadd, List.length_zipWith, hhd]
      have hrec : (tl.foldl vadd (vadd acc hd)).length = (vadd acc hd).length :=
        ih (vadd acc hd) fun l hle => by
          rw [hnew]; exact h l (List.mem_cons_of_mem _ hle)
      simpa [hnew] using hrec

lemma zipWith_scale_rows_length (w : List ℝ) (rows : List (List ℝ)) (n : ℕ)
    (h : ∀ r ∈ rows, r.length = n) :
    ∀ l ∈ List.zipWith (fun wi r => r.map (wi * ·)) w rows, l.length = n := by
  induction w generalizing rows with
  | nil => intro l hl; simp at hl
  | cons a w ih =>
      cases rows with
      | nil => intro l hl; simp at hl
      | cons r rs =>
          intro l hl
          rw [List.zipWith_cons_cons] at hl
          rcases List.mem_cons.mp hl with h1 | h2
          · subst h1; simp [h r (List.mem_cons_self _ _)]
          · exact ih rs (fun q hq => h q (List.mem_cons_of_mem _ hq)) l h2

lemma vecMat_length (w : List ℝ) (rows : List (List ℝ)) (n : ℕ)
    (h : ∀ r ∈ rows, r.length = n) : (vecMat w rows n).length = n := by
  have hz : (zeros n).length = n := by simp [zeros]
  have := foldl_vadd_length (List.zipWith (fun wi r => r.map (wi * ·)) w rows)
    (zeros n) fun l hl => by rw [hz]; exact zipWith_scale_rows_length w rows n h l hl
  simpa [vecMat, hz] using this

lemma matDiv_rows_length (rows : List (List ℝ)) (s : ℝ) (n : ℕ)
    (h : ∀ r ∈ rows, r.length = n) : ∀ r ∈ matDiv rows s, r.length = n := by
  intro r hr
  simp only [matDiv, List.mem_map] at hr
  obtain ⟨q, hq, rfl⟩ := hr
  simp [h q hq]

lemma vsub_zeros_eq_vneg (v : List ℝ) (n : ℕ) (h : v.length = n) :
    vsub (zeros n) v = vneg v := by
  subst h
  induction v with
  | nil => rfl
  | cons a t ih =>
      simp only [zeros, List.length_cons, List.replicate_succ] at *
      simpa [vsub, vneg] using ih

lemma vadd_zeros_left (v : List ℝ) (n : ℕ) (h : v.length = n) :
    vadd (zeros n) v = v := by
  subst h
  induction v with
  | nil => rfl
  | cons a t ih =>
      simp only [zeros, List.length_cons, List.replicate_succ] at *
      simpa [vadd] using ih

lemma vadd_zeros_right (v : List ℝ) (n : ℕ) (h : v.length = n) :
    vadd v (zeros n) = v := by
  subst h
  induction v with
  | nil => rfl
  | cons a t ih =>
      simp only [zeros, List.length_cons, List.replicate_succ] at *
      simpa [vadd] using ih

lemma vneg_zeros (n : ℕ) : vneg (zeros n) = zeros n := by
  simp [vneg, zeros]

lemma vneg_length (v : List ℝ) : (vneg v).length = v.length := by
  simp [vneg]

lemma vadd_length (a b : List ℝ) : (vadd a b).length = min a.length b.length := by
  simp [vadd]

/-- C2: the accumulated gradient equals the per-group formula the spec
gives: left contributes `-Σ ratio·x/σ` to β and `-Σ ratio·z` to the σ
accumulator, right `+Σ ratio·x/σ` and `-Σ ratio·z`, mid `+Σ z·x/σ` and
`+Σ (z²-1)`; the final σ entry is the accumulator divided by σ and the whole
vector is negated.  Feature rows are assumed to have the coefficient
vector's length, as `numpy` requires of the dot products. -/
theorem tobit_neg_log_likelihood_der_eq_groups (d : TobitData) (b : List ℝ) (s : ℝ)
    (hl : groupWF d.left b.length) (hm : groupWF d.mid b.length)
    (hr : groupWF d.right b.length) :
    tobit_neg_log_likelihood_der d (b ++ [s]) = grad_by_groups d b s := by
  obtain ⟨l, m, r⟩ := d
  simp only at hl hm hr
  have hzn : (zeros b.length).length = b.length := by simp [zeros]
  cases l with
  | none =>
      cases m with
      | none =>
          cases r with
          | none =>
              simp only [tobit_neg_log_likelihood_der, grad_by_groups,
                dropLast_concat', getLastD_concat', vneg_zeros,
                vadd_zeros_left _ _ hzn, zero_sub, neg_zero, add_zero, sub_zero]
          | some gr =>
              have hgr : ∀ w, (vecMat w (matDiv gr.1 s) b.length).length = b.length :=
                fun w => vecMat_length _ _ _ (matDiv_rows_length _ _ _ (hr gr rfl))
              simp only [tobit_neg_log_likelihood_der, grad_by_groups,
                dropLast_concat', getLastD_concat', vneg_zeros]
              rw [vadd_zeros_right _ b.length
                (by simp [vadd_length, vneg_length, hzn, hgr])]
              simp only [zero_sub, neg_zero, add_zero, sub_zero]
      | some gm =>
          have hgm : ∀ w, (vecMat w (matDiv gm.1 s) b.length).length = b.length :=
            fun w => vecMat_length _ _ _ (matDiv_rows_length _ _ _ (hm gm rfl))
          cases r with
          | none =>
              simp only [tobit_neg_log_likelihood_der, grad_by_groups,
                dropLast_concat', getLastD_concat', vneg_zeros,
                vadd_zeros_left _ _ hzn, zero_sub, neg_zero, add_zero, sub_zero]
          | some gr =>
              have hgr : ∀ w, (vecMat w (matDiv gr.1 s) b.length).length = b.length :=
                fun w => vecMat_length _ _ _ (matDiv_rows_length _ _ _ (hr gr rfl))
              simp only [tobit_neg_log_likelihood_der, grad_by_groups,
                dropLast_concat', getLastD_concat', vneg_zeros,
                zero_sub, neg_zero, add_zero, sub_zero]
  | some gl =>
      have hgl : ∀ w, (vecMat w (matDiv gl.1 s) b.length).length = b.length :=
        fun w => vecMat_length _ _ _ (matDiv_rows_length _ _ _ (hl gl rfl))
      cases m with
      | none =>
          cases r with
          | none =>
              simp only [tobit_neg_log_likelihood_der, grad_by_groups,
                dropLast_concat', getLastD_concat']
              rw [vsub_zeros_eq_vneg _ _ (hgl _)]
              rw [vadd_zeros_right _ b.length
                (by simp [vadd_length, vneg_length, hzn, hgl])]
              rw [vadd_zeros_right _ b.length
                (by simp [vadd_length, vneg_length, hzn, hgl])]
              simp only [zero_sub, neg_zero, add_zero, sub_zero]
          | some gr =>
              have hgr : ∀ w, (vecMat w (matDiv gr.1 s) b.length).length = b.length :=
                fun w => vecMat_length _ _ _ (matDiv_rows_length _ _ _ (hr gr rfl))
              simp only [tobit_neg_log_likelihood_der, grad_by_groups,
                dropLast_concat', getLastD_concat']
              rw [vsub_zeros_eq_vneg _ _ (hgl _)]
              rw [vadd_zeros_right _ b.length
                (by simp [vadd_length, vneg_length, hzn, hgl, hgr])]
              simp only [zero_sub, neg_zero, add_zero, sub_zero]
      | some gm =>
          have hgm : ∀ w, (vecMat w (matDiv gm.1 s) b.length).length = b.length :=
            fun w => vecMat_length _ _ _ (matDiv_rows_length _ _ _ (hm gm rfl))
          cases r with
          | none =>
              simp only [tobit_neg_log_likelihood_der, grad_by_groups,
                dropLast_concat', getLastD_concat']
              rw [vsub_zeros_eq_vneg _ _ (hgl _)]
              rw [vadd_zeros_right _ b.length
                (by simp [vadd_length, vneg_length, hzn, hgl])]
              simp only [zero_sub, neg_zero, add_zero, sub_zero]
          | some gr =>
              have hgr : ∀ w, (vecMat w (matDiv gr.1 s) b.length).length = b.length :=
                fun w => vecMat_length _ _ _ (matDiv_rows_length _ _ _ (hr gr rfl))
              simp only [tobit_neg_log_likelihood_der, grad_by_groups,
                dropLast_concat', getLastD_concat']
              rw [vsub_zeros_eq_vneg _ _ (hgl _)]
              simp only [zero_sub, neg_zero, add_zero, sub_zero]

/-- C2, witness: the gradient and the spec formula agree on a concrete
one-observation uncensored dataset. -/
theorem tobit_neg_log_likelihood_der_eq_groups_witness :
    tobit_neg_log_likelihood_der ⟨none, some ([[1]], [2]), none⟩ ([1] ++ [1]) =
      grad_by_groups ⟨none, some ([[1]], [2]), none⟩ [1] 1 :=
  tobit_neg_log_likelihood_der_eq_groups ⟨none, some ([[1]], [2]), none⟩ [1] 1
    (by intro p hp; exact Option.noConfusion hp)
    (by
      intro p hp r hr
      injection hp with h
      subst h
      simp only [List.mem_singleton] at hr
      subst hr
      rfl)
    (by intro p hp; exact Option.noConfusion hp)

/-! ## The scale floor (claim C4) -/

/-- The objective's value once the floor is active: for `s ≤ resolution` the
mid group's scale term is the constant `log resolution`, while every
standardized residual still divides by the raw `s`. -/
noncomputable def loglik_floored (d : TobitData) (b : List ℝ) (s : ℝ) : ℝ :=
  let lsum : ℝ :=
    match d.left with
    | some g => (List.zipWith (fun yi r => log_ndtr ((yi - dot r b) / s)) g.2 g.1).sum
    | none => 0
  let rsum : ℝ :=
    match d.right with
    | some g => (List.zipWith (fun r yi => log_ndtr ((dot r b - yi) / s)) g.1 g.2).sum
    | none => 0
  let msum : ℝ :=
    match d.mid with
    | some g =>
        (List.zipWith
          (fun yi r => logpdf ((yi - dot r b) / s) - Real.log resolution) g.2 g.1).sum
    | none => 0
  Neg.neg (lsum + rsum + msum)

/-- C4, counterexample: the gradient applies no floor to `sigma`.  On one
uncensored observation with `b = [0]`, evaluating the gradient at
`sigma = -1` and at the floored `max resolution (-1) = 1e-15` gives
different vectors, so the gradient does not "guard sigma by flooring it". -/
theorem tobit_der_not_floored_cex :
    tobit_neg_log_likelihood_der ⟨none, some ([[1]], [1]), none⟩ ([0] ++ [-1]) ≠
      tobit_neg_log_likelihood_der ⟨none, some ([[1]], [1]), none⟩
        ([0] ++ [max resolution (-1)]) := by
  have hmax : max resolution (-1 : ℝ) = 1 / 10 ^ 15 := by
    rw [resolution]; exact max_eq_left (by norm_num)
  simp only [tobit_neg_log_likelihood_der, dropLast_concat', getLastD_concat', hmax,
    dot, vadd, vsub, vneg, zeros, vecMat, matDiv, List.zipWith, List.map, List.foldl,
    List.replicate, List.sum_cons, List.sum_nil]
  intro h
  norm_num at h

/-- C4 (amended): only the objective floors `sigma`, and only inside its
`log sigma` term — for `s ≤ resolution` the mid group's scale term becomes
the constant `log resolution` while the standardized residuals keep the raw
`s` — and the gradient applies no floor at all (its value at `sigma = -1`
differs from its value at the floored scale). -/
theorem tobit_sigma_floor_shape :
    (∀ (d : TobitData) (b : List ℝ) (s : ℝ), s ≤ resolution →
        tobit_neg_log_likelihood d (b ++ [s]) = loglik_floored d b s) ∧
      tobit_neg_log_likelihood_der ⟨none, some ([[2]], [1]), none⟩ ([0] ++ [-1]) ≠
        tobit_neg_log_likelihood_der ⟨none, some ([[2]], [1]), none⟩
          ([0] ++ [max resolution (-1)]) := by
  constructor
  · intro d b s hs
    obtain ⟨l, m, r⟩ := d
    have hmax : max resolution s = resolution := max_eq_left hs
    simp only [tobit_neg_log_likelihood, loglik_floored, dropLast_concat',
      getLastD_concat', hmax]
    cases l <;> cases m <;> cases r <;>
      simp [List.map_zipWith, add_comm, add_left_comm, add_assoc]
  · have hmax : max resolution (-1 : ℝ) = 1 / 10 ^ 15 := by
      rw [resolution]; exact max_eq_left (by norm_num)
    simp only [tobit_neg_log_likelihood_der, dropLast_concat', getLastD_concat', hmax,
      dot, vadd, vsub, vneg, zeros, vecMat, matDiv, List.zipWith, List.map, List.foldl,
      List.replicate, List.sum_cons, List.sum_nil]
    intro h
    norm_num at h

/-- C4, witness: the floored-objective identity instantiated at `s = 0`. -/
theorem tobit_sigma_floor_shape_witness :
    tobit_neg_log_likelihood ⟨none, some ([[1]], [1]), none⟩ ([0] ++ [0]) =
      loglik_floored ⟨none, some ([[1]], [1]), none⟩ [0] 0 :=
  tobit_sigma_floor_shape.1 ⟨none, some ([[1]], [1]), none⟩ [0] 0
    (by rw [resolution]; norm_num)

/-! ## Partitioner invariants (claims C5, C6) -/

/-- Number of observations a (possibly absent) group holds. -/
def rowCount : Option (List (List ℝ) × List ℝ) → ℕ
  | none => 0
  | some g => g.1.length

/-- A group's observations as (row, response) pairs; `[]` when absent. -/
def groupList : Option (List (List ℝ) × List ℝ) → List (List ℝ × ℝ)
  | none => []
  | some g => g.1.zip g.2

lemma code_mem_of_mem_rowsOf {x : List (List ℝ)} {y : List ℝ} {cens : List ℤ}
    {r : List ℝ × ℝ × ℤ} (h : r ∈ rowsOf x y cens) : r.2.2 ∈ cens :=
  (List.of_mem_zip (List.of_mem_zip h).2).2

lemma filter_rowsOf_eq_nil {x : List (List ℝ)} {y : List ℝ} {cens : List ℤ}
    {v : ℤ} (hv : v ∉ cens) :
    (rowsOf x y cens).filter (fun r => r.2.2 == v) = [] := by
  rw [List.filter_eq_nil_iff]
  intro r hr hbe
  have he : r.2.2 = v := by simpa using hbe
  exact hv (he ▸ code_mem_of_mem_rowsOf hr)

lemma groupList_selGroup (x : List (List ℝ)) (y : List ℝ) (cens : List ℤ) (v : ℤ) :
    groupList (selGroup x y cens v) =
      ((rowsOf x y cens).filter fun r => r.2.2 == v).map fun r => (r.1, r.2.1) := by
  by_cases h : v ∈ cens
  · simp [selGroup, groupList, h, List.zip_map']
  · simp [selGroup, groupList, h, filter_rowsOf_eq_nil h]

lemma rowCount_selGroup (x : List (List ℝ)) (y : List ℝ) (cens : List ℤ) (v : ℤ) :
    rowCount (selGroup x y cens v) =
      ((rowsOf x y cens).filter fun r => r.2.2 == v).length := by
  by_cases h : v ∈ cens
  · simp [selGroup, rowCount, h]
  · simp [selGroup, rowCount, h, filter_rowsOf_eq_nil h]

lemma rowsOf_map_proj (x : List (List ℝ)) (y : List ℝ) (cens : List ℤ)
    (h : y.length ≤ cens.length) :
    (rowsOf x y cens).map (fun r => (r.1, r.2.1)) = x.zip y := by
  induction x generalizing y cens with
  | nil => simp [rowsOf]
  | cons a xs ih =>
      cases y with
      | nil => simp [rowsOf]
      | cons b ys =>
          cases cens with
          | nil => simp at h
          | cons c cs =>
              simp only [rowsOf, List.zip_cons_cons, List.map_cons] at *
              exact congrArg _ (ih ys cs (Nat.le_of_succ_le_succ h))

lemma filter_three_perm (l : List (List ℝ × ℝ × ℤ))
    (hv : ∀ r ∈ l, r.2.2 = -1 ∨ r.2.2 = 0 ∨ r.2.2 = 1) :
    ((l.filter fun r => r.2.2 == -1) ++ (l.filter fun r => r.2.2 == 0) ++
        (l.filter fun r => r.2.2 == 1)).Perm l := by
  induction l with
  | nil => simp
  | cons a t ih =>
      have ht : ∀ r ∈ t, r.2.2 = -1 ∨ r.2.2 = 0 ∨ r.2.2 = 1 :=
        fun r hr => hv r (List.mem_cons_of_mem _ hr)
      have hperm := ih ht
      rcases hv a (List.mem_cons_self _ _) with h | h | h
      · have e1 : (a :: t).filter (fun r => r.2.2 == -1) =
            a :: t.filter (fun r => r.2.2 == -1) := by simp [List.filter_cons, h]
        have e2 : (a :: t).filter (fun r => r.2.2 == 0) =
            t.filter (fun r => r.2.2 == 0) := by simp [List.filter_cons, h]
        have e3 : (a :: t).filter (fun r => r.2.2 == 1) =
            t.filter (fun r => r.2.2 == 1) := by simp [List.filter_cons, h]
        rw [e1, e2, e3, List.cons_append, List.cons_append]
        exact hperm.cons a
      · have e1 : (a :: t).filter (fun r => r.2.2 == -1) =
            t.filter (fun r => r.2.2 == -1) := by simp [List.filter_cons, h]
        have e2 : (a :: t).filter (fun r => r.2.2 == 0) =
            a :: t.filter (fun r => r.2.2 == 0) := by simp [List.filter_cons, h]
        have e3 : (a :: t).filter (fun r => r.2.2 == 1) =
            t.filter (fun r => r.2.2 == 1) := by simp [List.filter_cons, h]
        rw [e1, e2, e3]
        refine List.Perm.trans ?_ (hperm.cons a)
        simp [List.append_assoc]
      · have e1 : (a :: t).filter (fun r => r.2.2 == -1) =
            t.filter (fun r => r.2.2 == -1) := by simp [List.filter_cons, h]
        have e2 : (a :: t).filter (fun r => r.2.2 == 0) =
            t.filter (fun r => r.2.2 == 0) := by simp [List.filter_cons, h]
        have e3 : (a :: t).filter (fun r => r.2.2 == 1) =
            a :: t.filter (fun r => r.2.2 == 1) := by simp [List.filter_cons, h]
        rw [e1, e2, e3]
        refine List.Perm.trans ?_ (hperm.cons a)
        simpa [List.append_assoc] using
          (@List.perm_middle _ a
            ((t.filter fun r => r.2.2 == -1) ++ (t.filter fun r => r.2.2 == 0))
            (t.filter fun r => r.2.2 == 1))

/-- C5 (amended): on datasets whose censoring codes all lie in {-1, 0, 1}
(and aligned column lengths), the partition is complete and duplicate-free —
the group row counts sum to the observation count and the groups' (row,
response) pairs are a permutation of the input pairs — each group is an
order-preserving sublist of the input, and a status with no observations is
represented as `none`. -/
theorem split_partition_invariants (x : List (List ℝ)) (y : List ℝ) (cens : List ℤ)
    (hxy : x.length = y.length) (hyc : y.length = cens.length)
    (hv : ∀ c ∈ cens, c = -1 ∨ c = 0 ∨ c = 1) :
    (rowCount (split_left_right_censored x y cens).left +
        rowCount (split_left_right_censored x y cens).mid +
        rowCount (split_left_right_censored x y cens).right = x.length) ∧
      (groupList (split_left_right_censored x y cens).left ++
          groupList (split_left_right_censored x y cens).mid ++
          groupList (split_left_right_censored x y cens).right).Perm (x.zip y) ∧
      (groupList (split_left_right_censored x y cens).left).Sublist (x.zip y) ∧
      (groupList (split_left_right_censored x y cens).mid).Sublist (x.zip y) ∧
      (groupList (split_left_right_censored x y cens).right).Sublist (x.zip y) ∧
      ((split_left_right_censored x y cens).left = none ↔ (-1 : ℤ) ∉ cens) ∧
      ((split_left_right_censored x y cens).mid = none ↔ (0 : ℤ) ∉ cens) ∧
      ((split_left_right_censored x y cens).right = none ↔ (1 : ℤ) ∉ cens) := by
  have hlen : (rowsOf x y cens).length = x.length := by
    simp only [rowsOf, List.length_zip]
    omega
  have hvrows : ∀ r ∈ rowsOf x y cens, r.2.2 = -1 ∨ r.2.2 = 0 ∨ r.2.2 = 1 :=
    fun r hr => hv _ (code_mem_of_mem_rowsOf hr)
  have hperm3 := filter_three_perm (rowsOf x y cens) hvrows
  have hmap := hperm3.map (fun r => (r.1, r.2.1))
  rw [List.map_append, List.map_append, rowsOf_map_proj x y cens (le_of_eq hyc)]
    at hmap
  have hsub : ∀ v : ℤ,
      (groupList (selGroup x y cens v)).Sublist (x.zip y) := by
    intro v
    rw [groupList_selGroup, ← rowsOf_map_proj x y cens (le_of_eq hyc)]
    exact (List.filter_sublist _).map _
  refine ⟨?_, ?_, hsub (-1), hsub 0, hsub 1, ?_, ?_, ?_⟩
  · have hcount := hperm3.length_eq
    simp only [List.length_append] at hcount
    simp only [split_left_right_censored, rowCount_selGroup]
    omega
  · simpa [split_left_right_censored, groupList_selGroup] using hmap
  · by_cases h : (-1 : ℤ) ∈ cens
    · simp [split_left_right_censored, selGroup, h]
    · simp [split_left_right_censored, selGroup, h]
  · by_cases h : (0 : ℤ) ∈ cens
    · simp [split_left_right_censored, selGroup, h]
    · simp [split_left_right_censored, selGroup, h]
  · by_cases h : (1 : ℤ) ∈ cens
    · simp [split_left_right_censored, selGroup, h]
    · simp [split_left_right_censored, selGroup, h]

/-- C5, witness: the partition invariants on a concrete two-row dataset with
one left-censored and one uncensored observation. -/
theorem split_partition_invariants_witness :
    (rowCount (split_left_right_censored [[1], [2]] [3, 4] [-1, 0]).left +
        rowCount (split_left_right_censored [[1], [2]] [3, 4] [-1, 0]).mid +
        rowCount (split_left_right_censored [[1], [2]] [3, 4] [-1, 0]).right =
        ([[1], [2]] : List (List ℝ)).length) ∧
      (groupList (split_left_right_censored [[1], [2]] [3, 4] [-1, 0]).left ++
          groupList (split_left_right_censored [[1], [2]] [3, 4] [-1, 0]).mid ++
          groupList (split_left_right_censored [[1], [2]] [3, 4] [-1, 0]).right).Perm
        (([[1], [2]] : List (List ℝ)).zip [3, 4]) ∧
      (groupList (split_left_right_censored [[1], [2]] [3, 4] [-1, 0]).left).Sublist
        (([[1], [2]] : List (List ℝ)).zip [3, 4]) ∧
      (groupList (split_left_right_censored [[1], [2]] [3, 4] [-1, 0]).mid).Sublist
        (([[1], [2]] : List (List ℝ)).zip [3, 4]) ∧
      (groupList (split_left_right_censored [[1], [2]] [3, 4] [-1, 0]).right).Sublist
        (([[1], [2]] : List (List ℝ)).zip [3, 4]) ∧
      ((split_left_right_censored [[1], [2]] [3, 4] [-1, 0]).left = none ↔
        (-1 : ℤ) ∉ ([-1, 0] : List ℤ)) ∧
      ((split_left_right_censored [[1], [2]] [3, 4] [-1, 0]).mid = none ↔
        (0 : ℤ) ∉ ([-1, 0] : List ℤ)) ∧
      ((split_left_right_censored [[1], [2]] [3, 4] [-1, 0]).right = none ↔
        (1 : ℤ) ∉ ([-1, 0] : List ℤ)) :=
  split_partition_invariants [[1], [2]] [3, 4] [-1, 0] rfl rfl (by decide)

/-- C5, counterexample to the unrestricted claim: an observation with the
invalid censoring code 2 lands in none of the three groups, so the group
row counts sum to 0, not to the observation count 1. -/
theorem split_partition_cex :
    rowCount (split_left_right_censored [[1]] [1] [2]).left +
        rowCount (split_left_right_censored [[1]] [1] [2]).mid +
        rowCount (split_left_right_censored [[1]] [1] [2]).right ≠
      ([[(1 : ℝ)]]).length := by
  norm_num [split_left_right_censored, selGroup, rowCount]

lemma filter_or_length (l : List (List ℝ × ℝ × ℤ)) :
    (l.filter fun r => r.2.2 == -1).length + (l.filter fun r => r.2.2 == 0).length +
        (l.filter fun r => r.2.2 == 1).length =
      (l.filter fun r => r.2.2 == -1 || r.2.2 == 0 || r.2.2 == 1).length := by
  induction l with
  | nil => rfl
  | cons a t ih =>
      by_cases h1 : a.2.2 = -1
      · simp only [List.filter_cons, h1]
        norm_num
        omega
      · by_cases h2 : a.2.2 = 0
        · simp only [List.filter_cons, h2]
          norm_num
          omega
        · by_cases h3 : a.2.2 = 1
          · simp only [List.filter_cons, h3]
            norm_num
            omega
          · have b1 : (a.2.2 == -1) = false := by simpa using h1
            have b2 : (a.2.2 == 0) = false := by simpa using h2
            have b3 : (a.2.2 == 1) = false := by simpa using h3
            simp only [List.filter_cons, b1, b2, b3]
            norm_num
            omega

lemma filter_code_length (x : List (List ℝ)) (y : List ℝ) (cens : List ℤ)
    (hxy : x.length = y.length) (hyc : y.length = cens.length) :
    ((rowsOf x y cens).filter fun r =>
        r.2.2 == -1 || r.2.2 == 0 || r.2.2 == 1).length =
      (cens.filter fun c => c == -1 || c == 0 || c == 1).length := by
  induction x generalizing y cens with
  | nil =>
      have hy : y = [] := List.length_eq_zero.mp hxy.symm
      subst hy
      have hc : cens = [] := List.length_eq_zero.mp hyc.symm
      subst hc
      rfl
  | cons a xs ih =>
      cases y with
      | nil => simp at hxy
      | cons b ys =>
          cases cens with
          | nil => simp at hyc
          | cons c cs =>
              have hxy' : xs.length = ys.length := by simpa using hxy
              have hyc' : ys.length = cs.length := by simpa using hyc
              simp only [rowsOf, List.zip_cons_cons, List.filter_cons]
              by_cases h : (c == -1 || c == 0 || c == 1) = true
              · simp only [h, if_true, List.length_cons]
                exact congrArg Nat.succ (ih ys cs hxy' hyc')
              · simp only [Bool.not_eq_true] at h
                simp only [h, if_false]
                exact ih ys cs hxy' hyc'

/-- C6 (amended): the partitioner raises no error on invalid censoring
codes; observations whose code lies outside {-1, 0, 1} are silently dropped,
so the group row counts sum to the number of observations whose code is
valid, not to the total. -/
theorem split_silently_drops_invalid (x : List (List ℝ)) (y : List ℝ)
    (cens : List ℤ) (hxy : x.length = y.length) (hyc : y.length = cens.length) :
    rowCount (split_left_right_censored x y cens).left +
        rowCount (split_left_right_censored x y cens).mid +
        rowCount (split_left_right_censored x y cens).right =
      (cens.filter fun c => c == -1 || c == 0 || c == 1).length := by
  simp only [split_left_right_censored, rowCount_selGroup]
  exact (filter_or_length _).trans (filter_code_length x y cens hxy hyc)

/-- C6, witness: with codes `[2, 0]` only the valid code 0 is counted. -/
theorem split_silently_drops_invalid_witness :
    rowCount (split_left_right_censored [[1], [2]] [1, 2] [2, 0]).left +
        rowCount (split_left_right_censored [[1], [2]] [1, 2] [2, 0]).mid +
        rowCount (split_left_right_censored [[1], [2]] [1, 2] [2, 0]).right =
      (([2, 0] : List ℤ).filter fun c => c == -1 || c == 0 || c == 1).length :=
  split_silently_drops_invalid [[1], [2]] [1, 2] [2, 0] rfl rfl

/-- C6, counterexample: on the invalid code 3 the partitioner neither raises
nor keeps the observation — it returns normally with all three groups
absent. -/
theorem split_invalid_code_no_error_cex :
    split_left_right_censored [[5]] [7] [3] = ⟨none, none, none⟩ := by
  norm_num [split_left_right_censored, selGroup]

/-! ## Inference statistics (claim C7) -/

/-- `np.sqrt` with NaN tracked as `none`: the square root of a negative
number is NaN, accompanied only by a runtime warning, never an exception. -/
noncomputable def npSqrt (x : ℝ) : Option ℝ :=
  if x < 0 then none else some (Real.sqrt x)

/-- `std_errors = np.sqrt(np.diag(hess_inv))`, entrywise on the diagonal. -/
noncomputable def fit_std_errors (diag : List ℝ) : List (Option ℝ) :=
  diag.map npSqrt

/-- `z_values = self.coef_ / coef_std_errors`: division by a NaN standard
error propagates the NaN. -/
noncomputable def fit_z_values (coef diag : List ℝ) : List (Option ℝ) :=
  List.zipWith (fun c v => (npSqrt v).map fun se => c / se) coef diag

/-- C7, counterexample: a negative diagonal entry produces a NaN standard
error (modelled `none`) while the computation returns normally — no error is
raised — and other entries are still computed. -/
theorem fit_std_errors_nan_cex :
    fit_std_errors [-1, 4] = [none, some 2] := by
  have h4 : Real.sqrt 4 = 2 := by
    rw [show (4 : ℝ) = 2 ^ 2 by norm_num, Real.sqrt_sq (by norm_num)]
  norm_num [fit_std_errors, npSqrt, h4]

/-- C7 (amended): a negative entry on the inverse-Hessian diagonal makes the
corresponding standard error NaN, and the NaN propagates into that
coefficient's z-value; no error is raised for the statistic. -/
theorem negative_diag_gives_nan (coef diag : List ℝ) (i : ℕ)
    (hc : i < coef.length) (hd : i < diag.length) (hneg : diag.getD i 0 < 0) :
    (fit_std_errors diag).getD i (some 0) = none ∧
      (fit_z_values coef diag).getD i (some 0) = none := by
  induction diag generalizing coef i with
  | nil => simp at hd
  | cons v t ih =>
      cases coef with
      | nil => simp at hc
      | cons c tc =>
          cases i with
          | zero =>
              have hv : v < 0 := by simpa using hneg
              simp [fit_std_errors, fit_z_values, npSqrt, hv]
          | succ j =>
              have hc' : j < tc.length := by simpa using hc
              have hd' : j < t.length := by simpa using hd
              have hneg' : t.getD j 0 < 0 := by simpa using hneg
              simpa [fit_std_errors, fit_z_values] using ih tc j hc' hd' hneg'

/-- C7, witness: the NaN propagation at index 0 of a concrete diagonal. -/
theorem negative_diag_gives_nan_witness :
    (fit_std_errors [-1, 4]).getD 0 (some 0) = none ∧
      (fit_z_values [5, 5] [-1, 4]).getD 0 (some 0) = none :=
  negative_diag_gives_nan [5, 5] [-1, 4] 0 (by norm_num) (by norm_num) (by norm_num)

/-! ## Prediction and scoring (claim C8) -/

/-- `TobitModel.predict`: `self.intercept_ + np.dot(x, self.coef_)`. -/
noncomputable def predict (intercept : ℝ) (coef : List ℝ) (x : List (List ℝ)) :
    List ℝ :=
  x.map fun r => intercept + dot r coef

/-- `TobitModel.score`: applies the scoring function to
`(y, np.dot(x, self.coef_))` — the intercept is not added. -/
noncomputable def score (coef : List ℝ) (x : List (List ℝ)) (y : List ℝ)
    (scoring : List ℝ → List ℝ → ℝ) : ℝ :=
  scoring y (x.map fun r => dot r coef)

/-- `sklearn.metrics.mean_absolute_error`. -/
noncomputable def mean_absolute_error (ytrue ypred : List ℝ) : ℝ :=
  (List.zipWith (fun a b => |a - b|) ytrue ypred).sum / ytrue.length

/-- C8, counterexample: with intercept 1 and coefficient 0 on the point
`x = [[0]], y = [0]`, `score` with the default metric returns 0 but the mean
absolute error of `(y, predict x)` is 1 — `score` omits the intercept. -/
theorem score_ignores_intercept_cex :
    score [0] [[0]] [0] mean_absolute_error ≠
      mean_absolute_error [0] (predict 1 [0] [[0]]) := by
  norm_num [score, predict, mean_absolute_error, dot]

/-- C8 (amended): `predict` is affine (`intercept + x·coef`, rowwise), but
`score` applies the metric to `(y, x·coef)` with the intercept omitted, so
it agrees with `metric (y, predict x)` only as computed at a zero
intercept. -/
theorem predict_affine_and_score_drops_intercept (intercept : ℝ) (coef : List ℝ)
    (x : List (List ℝ)) (y : List ℝ) (scoring : List ℝ → List ℝ → ℝ) :
    predict intercept coef x = x.map (fun r => intercept + dot r coef) ∧
      score coef x y scoring = scoring y (predict 0 coef x) := by
  constructor
  · rfl
  · simp [score, predict]

/-! ## Sign-flip symmetry (claim C9) -/

/-- Negate the responses of a (possibly absent) group; features unchanged. -/
def negResp (g : Option (List (List ℝ) × List ℝ)) :
    Option (List (List ℝ) × List ℝ) :=
  g.map fun p => (p.1, p.2.map Neg.neg)

/-- The transform of the claim: negate every response and swap the
left-censored and right-censored groups. -/
def flipData (d : TobitData) : TobitData :=
  ⟨negResp d.right, negResp d.mid, negResp d.left⟩

lemma dot_map_neg (r b : List ℝ) : dot r (b.map Neg.neg) = -dot r b := by
  induction r generalizing b with
  | nil => simp [dot]
  | cons a t ih =>
      cases b with
      | nil => simp [dot]
      | cons c cs =>
          have hih := ih cs
          simp only [dot, List.map_cons, List.zipWith_cons_cons, List.sum_cons] at *
          rw [hih]
          ring

lemma logpdf_neg (z : ℝ) : logpdf (-z) = logpdf z := by
  simp [logpdf, neg_sq]

lemma zip_res_flip_right (X : List (List ℝ)) (Y : List ℝ) (b : List ℝ) :
    List.zipWith (fun yi r => yi - dot r (b.map Neg.neg)) (Y.map Neg.neg) X =
      List.zipWith (fun r yi => dot r b - yi) X Y := by
  induction X generalizing Y with
  | nil => simp
  | cons xr xs ih =>
      cases Y with
      | nil => simp
      | cons yi ys =>
          simp only [List.map_cons, List.zipWith_cons_cons]
          refine congrArg₂ List.cons ?_ (ih ys)
          rw [dot_map_neg]
          ring

lemma zip_res_flip_left (X : List (List ℝ)) (Y : List ℝ) (b : List ℝ) :
    List.zipWith (fun r yi => dot r (b.map Neg.neg) - yi) X (Y.map Neg.neg) =
      List.zipWith (fun yi r => yi - dot r b) Y X := by
  induction X generalizing Y with
  | nil => simp
  | cons xr xs ih =>
      cases Y with
      | nil => simp
      | cons yi ys =>
          simp only [List.map_cons, List.zipWith_cons_cons]
          refine congrArg₂ List.cons ?_ (ih ys)
          rw [dot_map_neg]
          ring

lemma zip_mid_flip (X : List (List ℝ)) (Y : List ℝ) (b : List ℝ) (s : ℝ) :
    List.zipWith
        (fun yi r => logpdf ((yi - dot r (b.map Neg.neg)) / s) -
          Real.log (max resolution s)) (Y.map Neg.neg) X =
      List.zipWith
        (fun yi r => logpdf ((yi - dot r b) / s) - Real.log (max resolution s))
        Y X := by
  induction X generalizing Y with
  | nil => simp
  | cons xr xs ih =>
      cases Y with
      | nil => simp
      | cons yi ys =>
          simp only [List.map_cons, List.zipWith_cons_cons]
          refine congrArg₂ List.cons ?_ (ih ys)
          rw [dot_map_neg, show -yi - -dot xr b = -(yi - dot xr b) by ring,
            neg_div, logpdf_neg]

/-- C9: negating all responses, swapping the left and right groups, and
negating the coefficient vector (the features — including any intercept
column — and the scale are unchanged) leaves the negative log-likelihood
invariant. -/
theorem tobit_neg_log_likelihood_sign_symmetry (d : TobitData) (b : List ℝ)
    (s : ℝ) :
    tobit_neg_log_likelihood (flipData d) (b.map Neg.neg ++ [s]) =
      tobit_neg_log_likelihood d (b ++ [s]) := by
  obtain ⟨l, m, r⟩ := d
  cases l <;> cases m <;> cases r <;>
    simp only [flipData, negResp, Option.map_some', Option.map_none',
      tobit_neg_log_likelihood, dropLast_concat', getLastD_concat',
      zip_res_flip_right, zip_res_flip_left, zip_mid_flip, List.map_append,
      List.sum_append, List.map_nil, List.sum_nil, List.append_nil,
      List.nil_append] <;>
    ring

/-! ## The fit driver (claims C3, C10) -/

/-- The fitted attributes `fit` stores: `intercept_`, `coef_`, `sigma_`. -/
structure FitResult where
  intercept_ : ℝ
  coef_ : List ℝ
  sigma_ : ℝ

/-- `np.var`: mean squared deviation from the mean. -/
noncomputable def npVar (v : List ℝ) : ℝ :=
  ((v.map fun a => (a - v.sum / v.length) ^ 2).sum) / v.length

/-- `TobitModel.fit`, with the external collaborators (the OLS solver and
the BFGS optimizer) passed as functions.  With the intercept enabled a
constant-1 column is prepended, the warm start `b0 ++ [s0]` is built from
the OLS fit and residual variance, the optimizer is run on the partitioned
data, and the final vector `rx` is split as the source does:
`intercept_ = rx[1]`, `coef_ = rx[1:-1]`, `sigma_ = rx[-1]`.  With
`fit_intercept = False` the source instead calls `x_copy.scale(...)`, but
`pandas.DataFrame` has no `scale` method, so that call raises
`AttributeError` before the OLS solver or the optimizer is ever invoked;
the branch is embedded as `Except.error`. -/
noncomputable def TobitModel.fit (fit_intercept : Bool)
    (ols : List (List ℝ) → List ℝ → List ℝ)
    (optimizer : (List ℝ → ℝ) → (List ℝ → List ℝ) → List ℝ → List ℝ)
    (x : List (List ℝ)) (y : List ℝ) (cens : List ℤ) : Except String FitResult :=
  if fit_intercept then
    let x_copy := x.map fun r => 1 :: r
    let b0 := ols x_copy y
    let resid := List.zipWith (fun yi p => yi - p) y (x_copy.map fun r => dot r b0)
    let s0 := Real.sqrt (npVar resid)
    let params0 := b0 ++ [s0]
    let d := split_left_right_censored x_copy y cens
    let rx := optimizer (fun p => tobit_neg_log_likelihood d p)
      (fun p => tobit_neg_log_likelihood_der d p) params0
    Except.ok ⟨rx.getD 1 0, (rx.drop 1).dropLast, rx.getLastD 0⟩
  else
    Except.error "AttributeError: DataFrame has no method scale"

/-- C3 (the code evaluated at the failing input): with the intercept enabled
and the optimizer returning the final vector `[10, 20, 30, 2]`, `fit` stores
`intercept_ = 20` — the second entry, which is also the first stored
coefficient — not the first entry 10, while `coef_ = [20, 30]` and
`sigma_ = 2` follow the claimed layout. -/
theorem fit_intercept_is_second_entry (ols : List (List ℝ) → List ℝ → List ℝ) :
    TobitModel.fit true ols (fun _f _g _p => [10, 20, 30, 2]) [[1]] [1] [0] =
      Except.ok ⟨20, [20, 30], 2⟩ := by
  rfl

/-- C10: with `fit_intercept = False`, `fit` fails with `AttributeError`
(the `DataFrame.scale` call) for every dataset, every OLS solver and every
optimizer — the optimizer argument is never consulted and no fitted
attributes are produced. -/
theorem fit_no_intercept_errors (ols : List (List ℝ) → List ℝ → List ℝ)
    (optimizer : (List ℝ → ℝ) → (List ℝ → List ℝ) → List ℝ → List ℝ)
    (x : List (List ℝ)) (y : List ℝ) (cens : List ℤ) :
    TobitModel.fit false ols optimizer x y cens =
      Except.error "AttributeError: DataFrame has no method scale" := by
  rfl

end Tobit
